import Mathlib

/-!
Verification of the color-reduction / color-science core of
mosaic-pixel-matrixator against its natural-language specification.

The Python source is shallowly embedded:
* machine integers become `ℤ`/`ℕ`;
* IEEE floating point becomes exact `ℚ` arithmetic (the Python code only
  feeds small decimal fractions through these formulas, and every concrete
  value appearing in a theorem below is tie-free, so the idealisation is
  order- and value-faithful at those points);
* a Python expression that can raise (`ZeroDivisionError`, numpy `argmin`
  on an empty array) becomes an `Option`-valued function, `none` marking
  the raise;
* `round(x, 1)` becomes `round1` (round half up to one decimal; all
  rounded quantities proved about below are tie-free, so the half-even
  tie rule of Python never matters);
* `int(x)` (truncation toward zero) becomes `qtrunc`;
* `.astype(np.uint8)` becomes truncation followed by `% 256`.
-/

/-- Clamp an integer to `[0, 255]`, as `max(0, min(255, int(x)))` in
`color_converter.py`. -/
def clamp255 (x : ℤ) : ℤ := max 0 (min 255 x)

/-- Round a rational to one decimal place, half up; embeds Python
`round(x, 1)` (Python rounds half to even, but every rounding in the
theorems below is applied to a tie-free value). -/
def round1 (x : ℚ) : ℚ := (⌊x * 10 + 1/2⌋ : ℤ) / 10

/-- Clamp a rational to `[0, 1]`, as in `rgb_to_cmyk`. -/
def clamp01 (x : ℚ) : ℚ := max 0 (min 1 x)

/-- Division embedding a Python `/` that raises `ZeroDivisionError` on a
zero divisor. -/
def safeDiv (x y : ℚ) : Option ℚ := if y = 0 then none else some (x / y)

/-- Truncation toward zero, embedding Python `int(x)` on a float. -/
def qtrunc (x : ℚ) : ℤ := if 0 ≤ x then ⌊x⌋ else ⌈x⌉

/-- Python float `x % y` for positive `y` : `x - y * ⌊x / y⌋`. -/
def pymod (x y : ℚ) : ℚ := x - y * ⌊x / y⌋

/-- Hexadecimal digit character (uppercase), `0`–`9` then `A`–`F`. -/
def hexDigit (n : ℕ) : Char := if n < 10 then Char.ofNat (48 + n) else Char.ofNat (55 + n)

/-- Two zero-padded uppercase hex digits of a clamped channel, embedding
the `{r:02X}` format field of `ColorConverter.rgb_to_hex`. -/
def byteHex (x : ℤ) : List Char :=
  [hexDigit ((clamp255 x).toNat / 16), hexDigit ((clamp255 x).toNat % 16)]

/-- `ColorConverter.rgb_to_hex` from `color_converter.py`: clamp each
channel to `[0,255]` and format as `#RRGGBB`. -/
def rgb_to_hex (r g b : ℤ) : List Char :=
  '#' :: (byteHex r ++ byteHex g ++ byteHex b)

/-- `ColorConverter.rgb_to_cmyk` from `color_converter.py`: channels are
clamped and normalised to `[0,1]`, `k = 1 - max(r,g,b)`, the pure-black
case returns `(0,0,0,100)`, otherwise each of c/m/y is
`(1 - ch - k)/(1 - k)` (the source guards the division with
`if (1.0 - k) > 0 else 0.0`), clamped to `[0,1]`, and all four are
reported as percentages rounded to one decimal. -/
def rgb_to_cmyk (r g b : ℤ) : ℚ × ℚ × ℚ × ℚ :=
  let rn : ℚ := (clamp255 r : ℚ) / 255
  let gn : ℚ := (clamp255 g : ℚ) / 255
  let bn : ℚ := (clamp255 b : ℚ) / 255
  let k : ℚ := 1 - max rn (max gn bn)
  if k = 1 then (0, 0, 0, 100)
  else
    let c : ℚ := if 1 - k > 0 then (1 - rn - k) / (1 - k) else 0
    let m : ℚ := if 1 - k > 0 then (1 - gn - k) / (1 - k) else 0
    let y : ℚ := if 1 - k > 0 then (1 - bn - k) / (1 - k) else 0
    (round1 (clamp01 c * 100), round1 (clamp01 m * 100),
     round1 (clamp01 y * 100), round1 (k * 100))

/-- The spec's wording of `toCMYK` (§4.4): `k = 1 − max(r,g,b)/255`; if
`k == 1` return `(0,0,0,100)`; otherwise `c = (1 − r/255 − k)/(1 − k)`
and analogously for m and y, each clamped to `[0,1]` and reported as a
percentage rounded to one decimal.  Stated without the source's inner
`(1.0 - k) > 0` guard, to be compared with `rgb_to_cmyk`. -/
def rgb_to_cmykSpec (r g b : ℤ) : ℚ × ℚ × ℚ × ℚ :=
  let rn : ℚ := (clamp255 r : ℚ) / 255
  let gn : ℚ := (clamp255 g : ℚ) / 255
  let bn : ℚ := (clamp255 b : ℚ) / 255
  let k : ℚ := 1 - max rn (max gn bn)
  if k = 1 then (0, 0, 0, 100)
  else
    (round1 (clamp01 ((1 - rn - k) / (1 - k)) * 100),
     round1 (clamp01 ((1 - gn - k) / (1 - k)) * 100),
     round1 (clamp01 ((1 - bn - k) / (1 - k)) * 100),
     round1 (k * 100))

/-- `ColorConverter.rgb_to_cmyk` with every Python division that could
raise embedded as `safeDiv` (the source guards each of the three
divisions with `if (1.0 - k) > 0`); `none` would mark a reachable
`ZeroDivisionError`. -/
def rgb_to_cmykE (r g b : ℤ) : Option (ℚ × ℚ × ℚ × ℚ) :=
  let rn : ℚ := (clamp255 r : ℚ) / 255
  let gn : ℚ := (clamp255 g : ℚ) / 255
  let bn : ℚ := (clamp255 b : ℚ) / 255
  let k : ℚ := 1 - max rn (max gn bn)
  if k = 1 then some (0, 0, 0, 100)
  else do
    let c ← if 1 - k > 0 then safeDiv (1 - rn - k) (1 - k) else some 0
    let m ← if 1 - k > 0 then safeDiv (1 - gn - k) (1 - k) else some 0
    let y ← if 1 - k > 0 then safeDiv (1 - bn - k) (1 - k) else some 0
    some (round1 (clamp01 c * 100), round1 (clamp01 m * 100),
          round1 (clamp01 y * 100), round1 (k * 100))

/-- `ColorConverter.rgb_to_hsl` from `color_converter.py`, with each
Python division embedded as `safeDiv` (the divisor is `delta` in the hue
sector formulas and `1 - |2l - 1|` in the saturation formula; the source
only guards `delta == 0`). -/
def rgb_to_hslE (r g b : ℤ) : Option (ℚ × ℚ × ℚ) :=
  let rn : ℚ := (clamp255 r : ℚ) / 255
  let gn : ℚ := (clamp255 g : ℚ) / 255
  let bn : ℚ := (clamp255 b : ℚ) / 255
  let maxv : ℚ := max rn (max gn bn)
  let minv : ℚ := min rn (min gn bn)
  let delta : ℚ := maxv - minv
  let l : ℚ := (maxv + minv) / 2
  do
    let s ← if delta = 0 then some (0 : ℚ) else safeDiv delta (1 - |2 * l - 1|)
    let h0 ←
      if delta = 0 then some (0 : ℚ)
      else if maxv = rn then do
        let q ← safeDiv (gn - bn) delta
        some (60 * pymod q 6)
      else if maxv = gn then do
        let q ← safeDiv (bn - rn) delta
        some (60 * (q + 2))
      else do
        let q ← safeDiv (rn - gn) delta
        some (60 * (q + 4))
    let h : ℚ := if h0 < 0 then h0 + 360 else h0
    some (round1 h, round1 (s * 100), round1 (l * 100))

/-- `ColorBaseSelector.cmyk_to_rgb` from `color_base_selector.py`:
each channel is `int(255 * (1 - min(1, ch/100 + k/100)))`, then clamped
to `[0,255]`. -/
def cmyk_to_rgb (c m y k : ℚ) : ℤ × ℤ × ℤ :=
  let cn := c / 100
  let mn := m / 100
  let yn := y / 100
  let kn := k / 100
  (clamp255 (qtrunc (255 * (1 - min 1 (cn + kn)))),
   clamp255 (qtrunc (255 * (1 - min 1 (mn + kn)))),
   clamp255 (qtrunc (255 * (1 - min 1 (yn + kn)))))

/-- `MatrixGenerator.calculate_dimensions_preserving_aspect_ratio` from
`matrix_generator.py`: aspect `a = origW / origH`; option 1 fits the
requested width (height `reqW / a`), option 2 fits the requested height
(width `reqH * a`); the option with the smaller total absolute
difference from the request is returned, ties favouring option 1,
together with its per-axis absolute differences.  The two Python
divisions are embedded as `safeDiv`; the source performs no validation
of the requested dimensions. -/
def calculate_dimensions_preserving_aspect_ratio (origW origH reqW reqH : ℚ) :
    Option (ℚ × ℚ × ℚ × ℚ) := do
  let a ← safeDiv origW origH
  let o1h ← safeDiv reqW a
  let o1wd : ℚ := |reqW - reqW|
  let o1hd : ℚ := |o1h - reqH|
  let o2w : ℚ := reqH * a
  let o2wd : ℚ := |o2w - reqW|
  let o2hd : ℚ := |reqH - reqH|
  if o1wd + o1hd ≤ o2wd + o2hd then some (reqW, o1h, o1wd, o1hd)
  else some (o2w, reqH, o2wd, o2hd)

/-! ## Median-cut quantizer (`color_quantizer.py`)

A pixel is an RGB triple of naturals; a box is a list of pixels.  The
`ColorQuantizer` stores `num_colors` (a Python `int`, embedded as `ℤ` so
that the behaviour at non-positive values can be stated), builds the
palette with `_median_cut_quantize`, and remaps every cell with
`_find_closest_color` (numpy `argmin`, which raises on an empty palette,
hence the `Option`). -/

abbrev RGB := ℕ × ℕ × ℕ

abbrev Box := List RGB

abbrev Grid := List (List RGB)

/-- Pin the `BEq` on RGB triples to the one induced by decidable
equality, so that occurrence counts elaborate uniformly. -/
instance : BEq RGB := instBEqOfDecidableEq

instance : LawfulBEq RGB where
  eq_of_beq h := of_decide_eq_true h
  rfl := decide_eq_true rfl

/-- Channel projection: channel 0 is red, 1 green, 2 blue. -/
def chan (i : ℕ) (p : RGB) : ℕ := if i = 0 then p.1 else if i = 1 then p.2.1 else p.2.2

/-- Maximum of one channel over a box (`box.max(axis=0)`), 0 on an empty
box (the source never takes it on an empty box). -/
def chanMax (b : Box) (i : ℕ) : ℕ := (b.map (chan i)).foldl max 0

/-- Minimum of one channel over a box (`box.min(axis=0)`). -/
def chanMin (b : Box) (i : ℕ) : ℕ :=
  match b with
  | [] => 0
  | p :: ps => (ps.map (chan i)).foldl min (chan i p)

/-- Per-channel range `max - min` of a box. -/
def chanRange (b : Box) (i : ℕ) : ℕ := chanMax b i - chanMin b i

/-- The largest single-channel range of a box (`ranges.max()`). -/
def maxRange (b : Box) : ℕ := max (chanRange b 0) (max (chanRange b 1) (chanRange b 2))

/-- The selection loop of `_median_cut_quantize`: scan the boxes with
their indices, skip empty boxes, and keep the first index whose largest
single-channel range strictly exceeds the best so far (initially index 0
with range 0). -/
def selectIdx (boxes : List Box) : ℕ :=
  (boxes.enum.foldl
    (fun best ib =>
      if ib.2 ≠ [] ∧ maxRange ib.2 > best.2 then (ib.1, maxRange ib.2) else best)
    (0, 0)).1

/-- `np.argmax(ranges)` over the three channel ranges: the first channel
attaining the maximum. -/
def argmaxChannel (b : Box) : ℕ :=
  if chanRange b 0 ≥ chanRange b 1 ∧ chanRange b 0 ≥ chanRange b 2 then 0
  else if chanRange b 1 ≥ chanRange b 2 then 1 else 2

/-- Comparison used to sort a box by one channel (`np.argsort` of that
channel's values; any order sorted by the channel key is an admissible
embedding of the unstable numpy sort, and every property proved below is
independent of the tie order). -/
def chanLe (i : ℕ) (p q : RGB) : Prop := chan i p ≤ chan i q

instance (i : ℕ) : DecidableRel (chanLe i) := fun p q => by
  unfold chanLe; infer_instance

/-- One iteration of the `while len(boxes) < num_colors` loop body of
`_median_cut_quantize`: select the box with the largest range; if it has
at most one point, break (`none`); otherwise sort it by its
largest-range channel, split at the median index `len // 2`, remove it,
and append the non-empty halves. -/
def mcStep (boxes : List Box) : Option (List Box) :=
  let i := selectIdx boxes
  let b := boxes.getD i []
  if b.length ≤ 1 then none
  else
    let sorted := List.insertionSort (chanLe (argmaxChannel b)) b
    let m := sorted.length / 2
    let b1 := sorted.take m
    let b2 := sorted.drop m
    some (boxes.eraseIdx i
      ++ (if b1 = [] then [] else [b1])
      ++ (if b2 = [] then [] else [b2]))

/-- The `while len(boxes) < num_colors and len(boxes) > 0` loop of
`_median_cut_quantize`, with explicit fuel.  Each completed iteration
grows the box list by exactly one, so `K.toNat + 1` fuel (as used in
`medianCutBoxes`) makes the fuel inexhaustible. -/
def mcLoop (K : ℤ) : ℕ → List Box → List Box
  | 0, boxes => boxes
  | fuel + 1, boxes =>
    if (boxes.length : ℤ) < K ∧ 0 < boxes.length then
      match mcStep boxes with
      | none => boxes
      | some bs => mcLoop K fuel bs
    else boxes

/-- The final box list of `_median_cut_quantize` for a non-empty pixel
list: the split loop started from the single box holding all pixels. -/
def medianCutBoxes (K : ℤ) (pixels : Box) : List Box :=
  mcLoop K (K.toNat + 1) [pixels]

/-- The representative color of a box:
`box.mean(axis=0).astype(np.uint8)`, i.e. the componentwise mean
truncated to an integer (floor, the values being non-negative) and cast
to `uint8` (`% 256`). -/
def meanColor (b : Box) : RGB :=
  (((b.map (fun p => p.1)).sum / b.length) % 256,
   ((b.map (fun p => p.2.1)).sum / b.length) % 256,
   ((b.map (fun p => p.2.2)).sum / b.length) % 256)

/-- The componentwise mean of a box truncated toward zero, with no
`uint8` cast; to be compared with `meanColor`. -/
def floorMean (b : Box) : RGB :=
  ((b.map (fun p => p.1)).sum / b.length,
   (b.map (fun p => p.2.1)).sum / b.length,
   (b.map (fun p => p.2.2)).sum / b.length)

/-- The spec's wording for a box representative (§4.3 step 3): the
componentwise mean rounded to the nearest integer, clamped to
`[0,255]`; to be compared with `meanColor`. -/
def roundMeanSpec (b : Box) : ℤ × ℤ × ℤ :=
  (max 0 (min 255 (round (((b.map (fun p => p.1)).sum : ℚ) / b.length))),
   max 0 (min 255 (round (((b.map (fun p => p.2.1)).sum : ℚ) / b.length))),
   max 0 (min 255 (round (((b.map (fun p => p.2.2)).sum : ℚ) / b.length))))

/-- Python list slicing `l[:k]` for an `int` bound `k` (negative bounds
count from the end, clamped at zero). -/
def pySlice (l : List α) (k : ℤ) : List α :=
  if 0 ≤ k then l.take k.toNat else l.take (l.length - (-k).toNat)

/-- `ColorQuantizer._median_cut_quantize`.  Empty input returns the
single-entry black palette; otherwise the split loop runs, each
non-empty final box contributes its `meanColor`, the palette is padded
with black up to `num_colors` entries and truncated to
`palette[:num_colors]`. -/
def medianCutQuantize (K : ℤ) (pixels : Box) : List RGB :=
  if pixels = [] then [(0, 0, 0)]
  else
    let palette := ((medianCutBoxes K pixels).filter (fun b => ¬b.isEmpty)).map meanColor
    pySlice (palette ++ List.replicate (K.toNat - palette.length) (0, 0, 0)) K

/-- The luma-weighted squared distance of `_find_closest_color`, scaled
by 1000: the source weighs the squared channel differences by
`(0.299, 0.587, 0.114)`; scaling by the positive constant 1000 gives
integer arithmetic and preserves every comparison. -/
def weightedDist (c p : RGB) : ℤ :=
  299 * ((p.1 : ℤ) - c.1) ^ 2 + 587 * ((p.2.1 : ℤ) - c.2.1) ^ 2 +
    114 * ((p.2.2 : ℤ) - c.2.2) ^ 2

/-- `ColorQuantizer._find_closest_color`: the palette entry of minimal
weighted distance, first entry winning ties (`np.argmin` returns the
first minimising index); `none` embeds the numpy raise on an empty
palette. -/
def findClosest (c : RGB) : List RGB → Option RGB
  | [] => none
  | p :: ps =>
    some ((ps.foldl
      (fun best q => if weightedDist c q < best.2 then (q, weightedDist c q) else best)
      (p, weightedDist c p)).1)

/-- Sequential `Option`-valued map, embedding a Python list
comprehension whose body can raise. -/
def mapOpt (f : α → Option β) : List α → Option (List β)
  | [] => some []
  | a :: as => do
    let b ← f a
    let bs ← mapOpt f as
    some (b :: bs)

/-- `ColorQuantizer.quantize_matrix` for a quantizer constructed with
`num_colors = K`: flatten the grid to a pixel list, build the palette
with `_median_cut_quantize`, then remap every cell to its closest
palette entry (raising, i.e. `none`, if the palette is empty and a cell
exists). -/
def quantize_matrix (K : ℤ) (g : Grid) : Option (List RGB × Grid) := do
  let palette := medianCutQuantize K g.flatten
  let g2 ← mapOpt (fun row => mapOpt (fun c => findClosest c palette) row) g
  some (palette, g2)

/-! ## Base-color mixer (`color_base_selector.py`) -/

/-- The five purchasable base primitives of `ColorBaseSelector`. -/
inductive BaseColor
  | cyan
  | magenta
  | yellow
  | black
  | white
  deriving DecidableEq

/-- One conditional recipe entry: the singleton list when the condition
holds, embedding an `if ...: mix.append(...)` statement. -/
def optEntry (cond : Prop) [Decidable cond] (n : BaseColor) (v : ℚ) :
    List (BaseColor × ℚ) :=
  if cond then [(n, v)] else []

/-- The entry-building phase of
`ColorBaseSelector.calculate_mix_instructions` (before the final
normalization): one entry per
strictly positive CMYK channel (its percentage rounded to one decimal);
if all four channels are below 10, white is added at
`100 - max(c,m,y,k)` (when positive); otherwise, if the four raw
channels sum below 100 and the remainder exceeds 5, white is added at
that remainder. -/
def mixPre (c m y k : ℚ) : List (BaseColor × ℚ) :=
  (optEntry (c > 0) BaseColor.cyan (round1 c) ++
   optEntry (m > 0) BaseColor.magenta (round1 m) ++
   optEntry (y > 0) BaseColor.yellow (round1 y) ++
   optEntry (k > 0) BaseColor.black (round1 k)) ++
  (if c < 10 ∧ m < 10 ∧ y < 10 ∧ k < 10 then
    optEntry (100 - max c (max m (max y k)) > 0) BaseColor.white
      (round1 (100 - max c (max m (max y k))))
  else
    optEntry (c + m + y + k < 100 ∧ 100 - (c + m + y + k) > 5)
      BaseColor.white (round1 (100 - (c + m + y + k))))

/-- `ColorBaseSelector.calculate_mix_instructions`: build the entries
with `mixPre`; then, if the entry total is positive, scale every entry
by `100/total` and round it to one decimal. -/
def calculate_mix_instructions (c m y k : ℚ) : List (BaseColor × ℚ) :=
  let total := ((mixPre c m y k).map (fun e => e.2)).sum
  if total > 0 then
    (mixPre c m y k).map (fun e => (e.1, round1 (e.2 * (100 / total))))
  else mixPre c m y k

/-! ## Paint inventory (`paint_colors.py`) -/

/-- `PaintColorInventory.add_color`: a `defaultdict(int)` keyed by the
RGB triple — increment the existing entry or append a fresh one (Python
dicts preserve insertion order). -/
def addColor (counts : List (RGB × ℕ)) (c : RGB) : List (RGB × ℕ) :=
  if counts.any (fun e => e.1 = c) then
    counts.map (fun e => if e.1 = c then (e.1, e.2 + 1) else e)
  else counts ++ [(c, 1)]

/-- `PaintColorInventory.from_matrix`: every cell of the grid is added
in row-major order. -/
def fromMatrix (g : Grid) : List (RGB × ℕ) := g.flatten.foldl addColor []

/-- Ascending lexicographic order on RGB triples, embedding Python's
comparison of the `[r, g, b]` lists used as sort tie-breaker. -/
def rgbLex (p q : RGB) : Prop :=
  p.1 < q.1 ∨ (p.1 = q.1 ∧ (p.2.1 < q.2.1 ∨ (p.2.1 = q.2.1 ∧ p.2.2 ≤ q.2.2)))

instance : DecidableRel rgbLex := fun p q => by
  unfold rgbLex; infer_instance

/-- The sort order of `get_required_paints`
(`key=lambda x: (-x['count'], x['rgb'])`): larger count first, ties by
ascending RGB triple. -/
def entryLe (a b : RGB × ℕ) : Prop := b.2 < a.2 ∨ (a.2 = b.2 ∧ rgbLex a.1 b.1)

instance : DecidableRel entryLe := fun a b => by
  unfold entryLe; infer_instance

instance : IsTotal (RGB × ℕ) entryLe :=
  ⟨fun a b => by unfold entryLe rgbLex; omega⟩

instance : IsTrans (RGB × ℕ) entryLe :=
  ⟨fun a b c hab hbc => by
    unfold entryLe rgbLex at hab hbc ⊢
    omega⟩

/-- `PaintColorInventory.get_required_paints` applied to
`from_matrix(grid)`: the per-color usage counts sorted by descending
count, ties by ascending RGB triple. -/
def get_required_paints (g : Grid) : List (RGB × ℕ) :=
  List.insertionSort entryLe (fromMatrix g)

/-! ## Helper lemmas -/

theorem clamp255_nonneg (x : ℤ) : 0 ≤ clamp255 x := le_max_left _ _

theorem clamp255_le (x : ℤ) : clamp255 x ≤ 255 :=
  max_le (by norm_num) (min_le_left _ _)

theorem chanNorm_nonneg (x : ℤ) : (0 : ℚ) ≤ (clamp255 x : ℚ) / 255 := by
  have h := clamp255_nonneg x
  positivity

theorem chanNorm_le_one (x : ℤ) : (clamp255 x : ℚ) / 255 ≤ 1 := by
  have h := clamp255_le x
  rw [div_le_one (by norm_num)]
  exact_mod_cast h

/-- The CMYK denominator `1 - k` is the (non-negative) maximum of the
normalised channels; it is positive whenever `k ≠ 1`. -/
theorem cmyk_denom_pos (r g b : ℤ)
    (h : ¬(1 - max ((clamp255 r : ℚ) / 255)
        (max ((clamp255 g : ℚ) / 255) ((clamp255 b : ℚ) / 255)) = 1)) :
    (0 : ℚ) < 1 - (1 - max ((clamp255 r : ℚ) / 255)
        (max ((clamp255 g : ℚ) / 255) ((clamp255 b : ℚ) / 255))) := by
  set M : ℚ := max ((clamp255 r : ℚ) / 255)
    (max ((clamp255 g : ℚ) / 255) ((clamp255 b : ℚ) / 255)) with hM
  have h0 : (0 : ℚ) ≤ M := le_trans (chanNorm_nonneg r) (le_max_left _ _)
  have hne : M ≠ 0 := by
    intro hz
    exact h (by rw [hz]; ring_nf)
  have : 1 - (1 - M) = M := by ring
  rw [this]
  exact lt_of_le_of_ne h0 (Ne.symm hne)

/-! ## C3: RGB → CMYK formulas and instances -/

/-- C3: for every integer RGB triple (clamped to `[0,255]`), `toCMYK`
computes `k = 1 - max(r,g,b)/255`; when `k = 1` it returns
`(0,0,0,100)`; otherwise `c = (1 - r/255 - k)/(1 - k)` and analogously
for m and y, each clamped to `[0,1]` and reported as a percentage
rounded to one decimal; in particular `toCMYK(255,255,255) = (0,0,0,0)`,
`toCMYK(0,0,0) = (0,0,0,100)` and `toCMYK(255,0,0) = (0,100,100,0)`. -/
theorem C3_rgb_to_cmyk_formula :
    (∀ r g b : ℤ, rgb_to_cmyk r g b = rgb_to_cmykSpec r g b) ∧
    rgb_to_cmyk 255 255 255 = (0, 0, 0, 0) ∧
    rgb_to_cmyk 0 0 0 = (0, 0, 0, 100) ∧
    rgb_to_cmyk 255 0 0 = (0, 100, 100, 0) := by
  refine ⟨fun r g b => ?_, ?_, ?_, ?_⟩
  · unfold rgb_to_cmyk rgb_to_cmykSpec
    by_cases h : (1 : ℚ) - max ((clamp255 r : ℚ) / 255)
        (max ((clamp255 g : ℚ) / 255) ((clamp255 b : ℚ) / 255)) = 1
    · simp [h]
    · have hpos := cmyk_denom_pos r g b h
      simp only [if_neg h, if_pos hpos]
  · norm_num [rgb_to_cmyk, clamp255, round1, clamp01, max_def, min_def]
  · norm_num [rgb_to_cmyk, clamp255, round1, clamp01, max_def, min_def]
  · norm_num [rgb_to_cmyk, clamp255, round1, clamp01, max_def, min_def]

/-! ## C10: base-primitive CMYK/RGB round trips -/

/-- C10: converting each of the five base primitives' canonical CMYK
values to RGB with `cmyk_to_rgb` and back with `rgb_to_cmyk` yields
exactly the canonical CMYK percentages again: cyan `(100,0,0,0)` ↔ RGB
`(0,255,255)`, magenta `(0,100,0,0)` ↔ `(255,0,255)`, yellow
`(0,0,100,0)` ↔ `(255,255,0)`, black `(0,0,0,100)` ↔ `(0,0,0)`, white
`(0,0,0,0)` ↔ `(255,255,255)`. -/
theorem C10_primitive_roundtrip :
    (cmyk_to_rgb 100 0 0 0 = (0, 255, 255) ∧ rgb_to_cmyk 0 255 255 = (100, 0, 0, 0)) ∧
    (cmyk_to_rgb 0 100 0 0 = (255, 0, 255) ∧ rgb_to_cmyk 255 0 255 = (0, 100, 0, 0)) ∧
    (cmyk_to_rgb 0 0 100 0 = (255, 255, 0) ∧ rgb_to_cmyk 255 255 0 = (0, 0, 100, 0)) ∧
    (cmyk_to_rgb 0 0 0 100 = (0, 0, 0) ∧ rgb_to_cmyk 0 0 0 = (0, 0, 0, 100)) ∧
    (cmyk_to_rgb 0 0 0 0 = (255, 255, 255) ∧ rgb_to_cmyk 255 255 255 = (0, 0, 0, 0)) := by
  refine ⟨⟨?_, ?_⟩, ⟨?_, ?_⟩, ⟨?_, ?_⟩, ⟨?_, ?_⟩, ⟨?_, ?_⟩⟩ <;>
    norm_num [cmyk_to_rgb, rgb_to_cmyk, qtrunc, clamp255, round1, clamp01,
      max_def, min_def]

/-! ## C9: totality of the color-space conversions -/

/-- When the HSL `delta` is nonzero, the saturation denominator
`1 - |2l - 1|` is nonzero: strictly between the extremes, the lightness
keeps `|2l - 1|` below 1. -/
theorem hsl_denom_ne (rn gn bn : ℚ) (h0 : 0 ≤ min rn (min gn bn))
    (h1 : max rn (max gn bn) ≤ 1)
    (hd : ¬max rn (max gn bn) - min rn (min gn bn) = 0) :
    ¬(1 : ℚ) - |2 * ((max rn (max gn bn) + min rn (min gn bn)) / 2) - 1| = 0 := by
  set mx : ℚ := max rn (max gn bn) with hmx
  set mn : ℚ := min rn (min gn bn) with hmn
  have hle : mn ≤ mx := by
    rw [hmx, hmn]
    exact le_trans (min_le_left _ _) (le_max_left _ _)
  have hlt : mn < mx := lt_of_le_of_ne hle (fun he => hd (by rw [← he]; ring))
  have hmx0 : 0 < mx := lt_of_le_of_lt h0 hlt
  have hmn1 : mn < 1 := lt_of_lt_of_le hlt h1
  have habs : |2 * ((mx + mn) / 2) - 1| < 1 := by
    rw [abs_lt]
    constructor <;> [linarith; linarith]
  intro hz
  rw [sub_eq_zero] at hz
  exact absurd hz.symm (ne_of_lt habs)

/-- C9: every conversion of the color converter (`toHex`, `toCMYK`,
`toHSL`) is total on all integer RGB inputs: no division by zero is
reachable — the divisions of `toCMYK` are guarded (and the guard holds
whenever `k ≠ 1`), and in `toHSL` the achromatic case `delta = 0` is
guarded while `delta ≠ 0` forces the saturation denominator
`1 - |2l - 1|` to be nonzero. -/
theorem C9_conversions_total (r g b : ℤ) :
    (rgb_to_cmykE r g b).isSome = true ∧
    (rgb_to_hslE r g b).isSome = true ∧
    (rgb_to_hex r g b).length = 7 := by
  refine ⟨?_, ?_, rfl⟩
  · unfold rgb_to_cmykE
    by_cases h : (1 : ℚ) - max ((clamp255 r : ℚ) / 255)
        (max ((clamp255 g : ℚ) / 255) ((clamp255 b : ℚ) / 255)) = 1
    · simp [h]
    · have hpos := cmyk_denom_pos r g b h
      have hMne : ¬max ((clamp255 r : ℚ) / 255)
          (max ((clamp255 g : ℚ) / 255) ((clamp255 b : ℚ) / 255)) = 0 := by
        intro hz
        rw [hz] at hpos
        norm_num at hpos
      simp only [if_neg h, safeDiv]
      split_ifs <;> simp_all
  · unfold rgb_to_hslE
    by_cases hd : max ((clamp255 r : ℚ) / 255)
          (max ((clamp255 g : ℚ) / 255) ((clamp255 b : ℚ) / 255)) -
        min ((clamp255 r : ℚ) / 255)
          (min ((clamp255 g : ℚ) / 255) ((clamp255 b : ℚ) / 255)) = 0
    · simp [hd]
    · have hden := hsl_denom_ne ((clamp255 r : ℚ) / 255) ((clamp255 g : ℚ) / 255)
        ((clamp255 b : ℚ) / 255)
        (le_min (chanNorm_nonneg r) (le_min (chanNorm_nonneg g) (chanNorm_nonneg b)))
        (max_le (chanNorm_le_one r) (max_le (chanNorm_le_one g) (chanNorm_le_one b)))
        hd
      simp only [safeDiv, if_neg hd, if_neg hden]
      split_ifs <;> simp

/-! ## C2: closest-fit dimension resolution -/

/-- C2: for every source image with positive width and height (aspect
`a = width/height`) and every request `(reqW, reqH)`,
`resolveDimensions` returns whichever of candidate A `(reqW, reqW/a)`
and candidate B `(reqH*a, reqH)` has the smaller sum of absolute
differences from the request, preferring A on ties, together with the
absolute deltas; in particular with aspect 2.0 (source 200×100) and
request `(200,150)` it returns `(200,100)` with deltas `(0,50)`. -/
theorem C2_closest_fit :
    (∀ origW origH reqW reqH : ℚ, 0 < origW → 0 < origH →
      calculate_dimensions_preserving_aspect_ratio origW origH reqW reqH =
        (if |reqW - reqW| + |reqW / (origW / origH) - reqH| ≤
            |reqH * (origW / origH) - reqW| + |reqH - reqH| then
          some (reqW, reqW / (origW / origH), |reqW - reqW|,
            |reqW / (origW / origH) - reqH|)
        else
          some (reqH * (origW / origH), reqH, |reqH * (origW / origH) - reqW|,
            |reqH - reqH|))) ∧
    calculate_dimensions_preserving_aspect_ratio 200 100 200 150 =
      some (200, 100, 0, 50) := by
  constructor
  · intro origW origH reqW reqH hW hH
    have hH0 : origH ≠ 0 := ne_of_gt hH
    have ha : origW / origH ≠ 0 := by positivity
    unfold calculate_dimensions_preserving_aspect_ratio
    simp [safeDiv, hH0, ha]
  · norm_num [calculate_dimensions_preserving_aspect_ratio, safeDiv,
      abs_eq_max_neg, max_def, min_def]

/-! ## C6: no validation of the requested dimensions -/

/-- C6 counterexample: the claim says `resolveDimensions` fails with an
`InvalidDimension` error whenever a requested dimension is ≤ 0, but at
source 200×100 and request `(-200, -150)` the code raises nothing and
returns the closest-fit candidate `(-200, -100)` with deltas
`(0, 50)`. -/
theorem C6_counterexample :
    ((-200 : ℚ) ≤ 0) ∧
    calculate_dimensions_preserving_aspect_ratio 200 100 (-200) (-150) =
      some (-200, -100, 0, 50) := by
  constructor
  · norm_num
  · norm_num [calculate_dimensions_preserving_aspect_ratio, safeDiv,
      abs_eq_max_neg, max_def, min_def]

/-- C6 amended: `resolveDimensions` performs no validation of the
requested dimensions — for every source with nonzero width and height
it returns a closest-fit result (never an error), including when a
requested dimension is ≤ 0; non-positive requests are rejected only by
the interactive CLI layer (`main.py`), not by this function. -/
theorem C6_no_dimension_validation (origW origH reqW reqH : ℚ)
    (hW : origW ≠ 0) (hH : origH ≠ 0) :
    (calculate_dimensions_preserving_aspect_ratio origW origH reqW reqH).isSome =
      true := by
  have ha : origW / origH ≠ 0 := div_ne_zero hW hH
  unfold calculate_dimensions_preserving_aspect_ratio
  simp [safeDiv, hH, ha]
  split_ifs <;> rfl

/-- C6 amended, witnessed at a non-positive request: source 200×100,
request `(-200, -150)` still yields a result. -/
theorem C6_no_dimension_validation_witness :
    (calculate_dimensions_preserving_aspect_ratio 200 100 (-200) (-150)).isSome =
      true :=
  C6_no_dimension_validation 200 100 (-200) (-150) (by norm_num) (by norm_num)

/-! ## C4: mix-recipe normalization -/

theorem mem_optEntry {p : Prop} [Decidable p] {n : BaseColor} {v : ℚ}
    {e : BaseColor × ℚ} (h : e ∈ optEntry p n v) : e = (n, v) ∧ p := by
  by_cases hp : p
  · refine ⟨?_, hp⟩
    simpa [optEntry, hp] using h
  · simp [optEntry, hp] at h

theorem round1_nonneg {x : ℚ} (h : 0 ≤ x) : 0 ≤ round1 x := by
  unfold round1
  have h0 : (0 : ℤ) ≤ ⌊x * 10 + 1/2⌋ := by
    rw [Int.le_floor]
    push_cast
    linarith
  positivity

theorem round1_close (x : ℚ) : |round1 x - x| ≤ 1/20 := by
  unfold round1
  have h1 : (⌊x * 10 + 1/2⌋ : ℚ) ≤ x * 10 + 1/2 := Int.floor_le _
  have h2 : x * 10 + 1/2 < (⌊x * 10 + 1/2⌋ : ℚ) + 1 := Int.lt_floor_add_one _
  rw [abs_le]
  constructor <;> [linarith; linarith]

theorem optEntry_length {p : Prop} [Decidable p] (n : BaseColor) (v : ℚ) :
    (optEntry p n v).length ≤ 1 := by
  unfold optEntry
  split_ifs <;> simp

/-- Every pre-normalization entry carries a non-negative percentage:
each is the one-decimal rounding of a quantity its guard makes
positive. -/
theorem mixPre_nonneg (c m y k : ℚ) : ∀ e ∈ mixPre c m y k, 0 ≤ e.2 := by
  intro e he
  unfold mixPre at he
  rcases List.mem_append.1 he with h4 | hw
  · rcases List.mem_append.1 h4 with h3 | hk
    · rcases List.mem_append.1 h3 with h2 | hy
      · rcases List.mem_append.1 h2 with hc | hm
        · obtain ⟨rfl, hp⟩ := mem_optEntry hc
          exact round1_nonneg (le_of_lt hp)
        · obtain ⟨rfl, hp⟩ := mem_optEntry hm
          exact round1_nonneg (le_of_lt hp)
      · obtain ⟨rfl, hp⟩ := mem_optEntry hy
        exact round1_nonneg (le_of_lt hp)
    · obtain ⟨rfl, hp⟩ := mem_optEntry hk
      exact round1_nonneg (le_of_lt hp)
  · by_cases hnw : c < 10 ∧ m < 10 ∧ y < 10 ∧ k < 10
    · rw [if_pos hnw] at hw
      obtain ⟨rfl, hp⟩ := mem_optEntry hw
      exact round1_nonneg (le_of_lt hp)
    · rw [if_neg hnw] at hw
      obtain ⟨rfl, hp⟩ := mem_optEntry hw
      exact round1_nonneg (by linarith [hp.2])

/-- The recipe has at most five entries: one optional entry per channel
plus at most one white entry. -/
theorem mixPre_length (c m y k : ℚ) : (mixPre c m y k).length ≤ 5 := by
  unfold mixPre
  have h1 := optEntry_length (p := c > 0) BaseColor.cyan (round1 c)
  have h2 := optEntry_length (p := m > 0) BaseColor.magenta (round1 m)
  have h3 := optEntry_length (p := y > 0) BaseColor.yellow (round1 y)
  have h4 := optEntry_length (p := k > 0) BaseColor.black (round1 k)
  by_cases hnw : c < 10 ∧ m < 10 ∧ y < 10 ∧ k < 10
  · rw [if_pos hnw]
    have h5 := optEntry_length (p := 100 - max c (max m (max y k)) > 0)
      BaseColor.white (round1 (100 - max c (max m (max y k))))
    simp only [List.length_append]
    omega
  · rw [if_neg hnw]
    have h5 := optEntry_length
      (p := c + m + y + k < 100 ∧ 100 - (c + m + y + k) > 5)
      BaseColor.white (round1 (100 - (c + m + y + k)))
    simp only [List.length_append]
    omega

theorem round1_pos {x : ℚ} (h : 1 ≤ x) : 0 < round1 x := by
  have hc := round1_close x
  rw [abs_le] at hc
  linarith [hc.1]

/-- One positive entry makes the recipe total positive (all entries
being non-negative). -/
theorem total_pos_of_mem (c m y k : ℚ) {e : BaseColor × ℚ}
    (he : e ∈ mixPre c m y k) (hpos : 0 < e.2) :
    0 < ((mixPre c m y k).map (fun e => e.2)).sum := by
  have hnn : ∀ x ∈ (mixPre c m y k).map (fun e => e.2), 0 ≤ x := by
    intro x hx
    obtain ⟨a, ha, rfl⟩ := List.mem_map.1 hx
    exact mixPre_nonneg c m y k a ha
  have hmem2 : e.2 ∈ (mixPre c m y k).map (fun e => e.2) :=
    List.mem_map.2 ⟨e, he, rfl⟩
  linarith [List.single_le_sum hnn _ hmem2]

/-- The recipe total is always positive: in the near-white branch the
white entry exceeds 90, otherwise some channel is at least 10 and its
entry is positive. -/
theorem mixPre_total_pos (c m y k : ℚ) :
    0 < ((mixPre c m y k).map (fun e => e.2)).sum := by
  by_cases hnw : c < 10 ∧ m < 10 ∧ y < 10 ∧ k < 10
  · have hM10 : max c (max m (max y k)) < 10 :=
      max_lt hnw.1 (max_lt hnw.2.1 (max_lt hnw.2.2.1 hnw.2.2.2))
    have hwpos : (0 : ℚ) < 100 - max c (max m (max y k)) := by linarith
    refine total_pos_of_mem c m y k
      (e := (BaseColor.white, round1 (100 - max c (max m (max y k))))) ?_ ?_
    · unfold mixPre
      refine List.mem_append_right _ ?_
      rw [if_pos hnw]
      simp [optEntry, hwpos]
    · exact round1_pos (by linarith)
  · have hch : 10 ≤ c ∨ 10 ≤ m ∨ 10 ≤ y ∨ 10 ≤ k := by
      by_contra hno
      push_neg at hno
      exact hnw ⟨hno.1, hno.2.1, hno.2.2.1, hno.2.2.2⟩
    rcases hch with h | h | h | h
    · refine total_pos_of_mem c m y k (e := (BaseColor.cyan, round1 c)) ?_
        (round1_pos (by linarith))
      unfold mixPre
      refine List.mem_append_left _ (List.mem_append_left _
        (List.mem_append_left _ (List.mem_append_left _ ?_)))
      simp [optEntry, show (0 : ℚ) < c by linarith]
    · refine total_pos_of_mem c m y k (e := (BaseColor.magenta, round1 m)) ?_
        (round1_pos (by linarith))
      unfold mixPre
      refine List.mem_append_left _ (List.mem_append_left _
        (List.mem_append_left _ (List.mem_append_right _ ?_)))
      simp [optEntry, show (0 : ℚ) < m by linarith]
    · refine total_pos_of_mem c m y k (e := (BaseColor.yellow, round1 y)) ?_
        (round1_pos (by linarith))
      unfold mixPre
      refine List.mem_append_left _ (List.mem_append_left _
        (List.mem_append_right _ ?_))
      simp [optEntry, show (0 : ℚ) < y by linarith]
    · refine total_pos_of_mem c m y k (e := (BaseColor.black, round1 k)) ?_
        (round1_pos (by linarith))
      unfold mixPre
      refine List.mem_append_left _ (List.mem_append_right _ ?_)
      simp [optEntry, show (0 : ℚ) < k by linarith]

/-- Summing entrywise-close functions keeps the sums within
`length * d`. -/
theorem sum_map_close {α : Type} (l : List α) (f g : α → ℚ) (d : ℚ)
    (h : ∀ a ∈ l, |f a - g a| ≤ d) :
    |(l.map f).sum - (l.map g).sum| ≤ l.length * d := by
  induction l with
  | nil => simp
  | cons a l ih =>
    have ha := h a (List.mem_cons_self a l)
    have hl := ih (fun x hx => h x (List.mem_cons_of_mem a hx))
    have htri : |f a + (l.map f).sum - (g a + (l.map g).sum)| ≤
        |f a - g a| + |(l.map f).sum - (l.map g).sum| := by
      have := abs_add (f a - g a) ((l.map f).sum - (l.map g).sum)
      calc |f a + (l.map f).sum - (g a + (l.map g).sum)|
          = |(f a - g a) + ((l.map f).sum - (l.map g).sum)| := by ring_nf
        _ ≤ _ := this
    simp only [List.map_cons, List.sum_cons, List.length_cons]
    calc |f a + (l.map f).sum - (g a + (l.map g).sum)|
        ≤ |f a - g a| + |(l.map f).sum - (l.map g).sum| := htri
      _ ≤ d + l.length * d := add_le_add ha hl
      _ = ((l.length + 1 : ℕ) : ℚ) * d := by push_cast; ring

/-- Normalizing a recipe of at most five entries to total `T` and then
rounding each entry to one decimal keeps the sum within `1/4` of 100. -/
theorem normalized_sum_close (l : List (BaseColor × ℚ)) (hlen : l.length ≤ 5)
    (T : ℚ) (hT : (l.map (fun e => e.2)).sum = T) (hTpos : 0 < T) :
    |(l.map (fun a => round1 (a.2 * (100 / T)))).sum - 100| ≤ 1/4 := by
  have h1 := sum_map_close l (fun a => round1 (a.2 * (100 / T)))
    (fun a => a.2 * (100 / T)) (1/20) (fun a _ => round1_close _)
  have h2 : (l.map (fun a => a.2 * (100 / T))).sum = 100 := by
    rw [List.sum_map_mul_right, hT]
    field_simp
  have hlen' : (l.length : ℚ) * (1/20) ≤ 1/4 := by
    have h5 : (l.length : ℚ) ≤ 5 := by exact_mod_cast hlen
    linarith
  calc |(l.map (fun a => round1 (a.2 * (100 / T)))).sum - 100|
      = |(l.map (fun a => round1 (a.2 * (100 / T)))).sum -
          (l.map (fun a => a.2 * (100 / T))).sum| := by rw [h2]
    _ ≤ l.length * (1/20) := h1
    _ ≤ 1/4 := hlen'

/-- C4 counterexample: the claim bounds the normalized recipe sum by
`100 ± 0.1`, but for the CMYK record `(8,8,8,8)` the code produces five
entries `6.5, 6.5, 6.5, 6.5, 74.2` whose sum is `100.2`, off by `0.2`. -/
theorem C4_counterexample :
    ((calculate_mix_instructions 8 8 8 8).map (fun e => e.2)).sum = 501 / 5 ∧
    ¬(|((calculate_mix_instructions 8 8 8 8).map (fun e => e.2)).sum - 100| ≤
        1 / 10) := by
  constructor <;>
    norm_num [calculate_mix_instructions, mixPre, optEntry, round1, max_def,
      min_def, abs_eq_max_neg]

/-- C4 amended: for every CMYK input record, the recipe returned by
`mixRecipe` is non-empty with non-negative percentages, and after the
`100/sum` normalization with each entry rounded to one decimal the
percentages sum to 100.0 within a tolerance of `±0.25` (five entries,
each rounded by at most `0.05`; the claimed `±0.1` does not hold, as
the `(8,8,8,8)` record shows). -/
theorem C4_mix_recipe_sum (c m y k : ℚ) :
    calculate_mix_instructions c m y k ≠ [] ∧
    (∀ e ∈ calculate_mix_instructions c m y k, 0 ≤ e.2) ∧
    |((calculate_mix_instructions c m y k).map (fun e => e.2)).sum - 100| ≤
      1 / 4 := by
  have htot := mixPre_total_pos c m y k
  have hmix : calculate_mix_instructions c m y k =
      (mixPre c m y k).map (fun e => (e.1, round1 (e.2 *
        (100 / ((mixPre c m y k).map (fun e => e.2)).sum)))) := by
    unfold calculate_mix_instructions
    rw [if_pos htot]
  refine ⟨?_, ?_, ?_⟩
  · rw [hmix]
    intro hempty
    rw [List.map_eq_nil_iff] at hempty
    rw [hempty] at htot
    simp at htot
  · intro e he
    rw [hmix] at he
    obtain ⟨a, ha, rfl⟩ := List.mem_map.1 he
    exact round1_nonneg (mul_nonneg (mixPre_nonneg c m y k a ha)
      (div_nonneg (by norm_num) (le_of_lt htot)))
  · rw [hmix, List.map_map]
    exact normalized_sum_close (mixPre c m y k) (mixPre_length c m y k)
      _ rfl htot

/-! ## C1: palette size and exact-membership of remapped cells -/

theorem foldl_min_mem (c : RGB) :
    ∀ (ps : List RGB) (acc : RGB × ℤ) (l0 : List RGB), acc.1 ∈ l0 →
      (∀ q ∈ ps, q ∈ l0) →
      (ps.foldl (fun best q =>
        if weightedDist c q < best.2 then (q, weightedDist c q) else best)
        acc).1 ∈ l0 := by
  intro ps
  induction ps with
  | nil => intro acc l0 h _; exact h
  | cons q qs ih =>
    intro acc l0 hacc hsub
    simp only [List.foldl_cons]
    apply ih
    · by_cases hlt : weightedDist c q < acc.2
      · simpa [hlt] using hsub q (List.mem_cons_self q qs)
      · simpa [hlt] using hacc
    · intro q2 hq2
      exact hsub q2 (List.mem_cons_of_mem q hq2)

/-- The closest color returned by `_find_closest_color` is an entry of
the palette. -/
theorem findClosest_mem {c x : RGB} {l : List RGB} (h : findClosest c l = some x) :
    x ∈ l := by
  match l with
  | [] => simp [findClosest] at h
  | p :: ps =>
    simp only [findClosest, Option.some.injEq] at h
    rw [← h]
    exact foldl_min_mem c ps (p, weightedDist c p) (p :: ps)
      (List.mem_cons_self p ps) (fun q hq => List.mem_cons_of_mem p hq)

theorem mapOpt_some {α β : Type} (f : α → Option β) (P : β → Prop) :
    ∀ l : List α, (∀ a ∈ l, ∃ b, f a = some b ∧ P b) →
      ∃ l2, mapOpt f l = some l2 ∧ ∀ b ∈ l2, P b := by
  intro l
  induction l with
  | nil => exact fun _ => ⟨[], rfl, by simp⟩
  | cons a as ih =>
    intro h
    obtain ⟨b, hb, hPb⟩ := h a (List.mem_cons_self a as)
    obtain ⟨l2, hl2, hP⟩ := ih (fun x hx => h x (List.mem_cons_of_mem a hx))
    refine ⟨b :: l2, by simp [mapOpt, hb, hl2], ?_⟩
    intro x hx
    rcases List.mem_cons.1 hx with rfl | hx
    · exact hPb
    · exact hP x hx

theorem mapOpt_none {α β : Type} (f : α → Option β) :
    ∀ (l : List α) (a : α), a ∈ l → f a = none → mapOpt f l = none := by
  intro l
  induction l with
  | nil => intro a ha; simp at ha
  | cons x xs ih =>
    intro a ha hfa
    rcases List.mem_cons.1 ha with rfl | ha
    · simp [mapOpt, hfa]
    · cases hfx : f x with
      | none => simp [mapOpt, hfx]
      | some b => simp [mapOpt, hfx, ih a ha hfa]

theorem mapOpt_id {α : Type} (f : α → Option α) :
    ∀ l : List α, (∀ a ∈ l, f a = some a) → mapOpt f l = some l := by
  intro l
  induction l with
  | nil => intro _; rfl
  | cons a as ih =>
    intro h
    simp [mapOpt, h a (List.mem_cons_self a as),
      ih (fun x hx => h x (List.mem_cons_of_mem a hx))]

/-- For `K ≥ 1` the palette of `_median_cut_quantize` has at most `K`
entries (the `palette[:K]` truncation) and at least one (the black
padding, or the single black entry of the empty-input path). -/
theorem medianCutQuantize_length (K : ℤ) (hK : 1 ≤ K) (pixels : Box) :
    (medianCutQuantize K pixels).length ≤ K.toNat ∧
      medianCutQuantize K pixels ≠ [] := by
  unfold medianCutQuantize
  by_cases hp : pixels = []
  · rw [if_pos hp]
    refine ⟨by simp; omega, by simp⟩
  · rw [if_neg hp]
    have h0K : (0 : ℤ) ≤ K := by omega
    unfold pySlice
    rw [if_pos h0K]
    constructor
    · rw [List.length_take]
      exact min_le_left _ _
    · intro hnil
      have hlen := congrArg List.length hnil
      rw [List.length_take, List.length_append, List.length_replicate] at hlen
      simp only [List.length_nil] at hlen
      omega

/-- C1: for every grid and every `K ≥ 1`, quantization succeeds,
returns a palette of at most `K` entries, and every cell of the
remapped grid is exactly an entry of that palette. -/
theorem C1_quantize_palette (g : Grid) (K : ℕ) (hK : 1 ≤ K) :
    ∃ p g2, quantize_matrix (K : ℤ) g = some (p, g2) ∧ p.length ≤ K ∧
      ∀ row ∈ g2, ∀ cell ∈ row, cell ∈ p := by
  have hK' : (1 : ℤ) ≤ (K : ℤ) := by exact_mod_cast hK
  obtain ⟨hlen, hne⟩ := medianCutQuantize_length (K : ℤ) hK' g.flatten
  have hcell : ∀ c : RGB, ∃ x, findClosest c (medianCutQuantize (K : ℤ) g.flatten) =
      some x ∧ x ∈ medianCutQuantize (K : ℤ) g.flatten := by
    intro c
    cases hp2 : medianCutQuantize (K : ℤ) g.flatten with
    | nil => exact absurd hp2 hne
    | cons p ps =>
      refine ⟨_, rfl, ?_⟩
      exact foldl_min_mem c ps (p, weightedDist c p) (p :: ps)
        (List.mem_cons_self p ps) (fun q hq => List.mem_cons_of_mem p hq)
  obtain ⟨g2, hg2, hProp⟩ := mapOpt_some
    (fun row => mapOpt (fun c => findClosest c (medianCutQuantize (K : ℤ) g.flatten)) row)
    (fun r2 => ∀ b ∈ r2, b ∈ medianCutQuantize (K : ℤ) g.flatten) g
    (fun row _ => mapOpt_some _ _ row (fun c _ => hcell c))
  refine ⟨medianCutQuantize (K : ℤ) g.flatten, g2, ?_, ?_, ?_⟩
  · simp only [quantize_matrix]
    rw [hg2]
    rfl
  · have h2 : ((K : ℤ)).toNat = K := Int.toNat_natCast K
    omega
  · intro row hrow cell hcell2
    exact hProp row hrow cell hcell2

/-- C1, witnessed at a concrete grid and `K = 2`. -/
theorem C1_quantize_palette_witness :
    1 ≤ 2 ∧ ∃ p g2, quantize_matrix ((2 : ℕ) : ℤ) [[(0, 0, 0), (255, 255, 255)]] =
      some (p, g2) ∧ p.length ≤ 2 ∧ ∀ row ∈ g2, ∀ cell ∈ row, cell ∈ p :=
  ⟨by norm_num, C1_quantize_palette [[(0, 0, 0), (255, 255, 255)]] 2 (by norm_num)⟩

/-! ## C7: behaviour at `K ≤ 0` and on the empty grid -/

/-- With `K ≤ 0` the split loop never runs (its guard
`len(boxes) < num_colors` is immediately false). -/
theorem medianCutBoxes_nonpos (K : ℤ) (hK : K ≤ 0) (pixels : Box) :
    medianCutBoxes K pixels = [pixels] := by
  unfold medianCutBoxes
  rw [Int.toNat_of_nonpos hK]
  show mcLoop K 1 [pixels] = [pixels]
  simp only [mcLoop]
  rw [if_neg]
  rintro ⟨h1, _⟩
  simp only [List.length_cons, List.length_nil] at h1
  omega

/-- With `K ≤ 0` and a non-empty pixel list, the truncation
`palette[:num_colors]` empties the palette. -/
theorem medianCutQuantize_nonpos (K : ℤ) (hK : K ≤ 0) (pixels : Box)
    (hp : pixels ≠ []) : medianCutQuantize K pixels = [] := by
  unfold medianCutQuantize
  rw [if_neg hp, medianCutBoxes_nonpos K hK pixels]
  have hfilter : ([pixels].filter fun b => ¬b.isEmpty) = [pixels] := by
    simp [List.filter, List.isEmpty_iff, hp]
  rw [hfilter]
  have ht : K.toNat = 0 := Int.toNat_of_nonpos hK
  unfold pySlice
  by_cases h0 : (0 : ℤ) ≤ K
  · rw [if_pos h0, ht]
    rfl
  · rw [if_neg h0]
    have h2 : (List.map meanColor [pixels] ++
        List.replicate (K.toNat - (List.map meanColor [pixels]).length)
          (0, 0, 0)).length - (-K).toNat = 0 := by
      simp only [List.length_append, List.length_map, List.length_cons,
        List.length_nil, List.length_replicate]
      omega
    rw [h2]
    rfl

/-- C7 counterexample: the claim demands an `InvalidArgument` error for
every `K ≤ 0`, but with `K = 0` and an empty grid `quantize` raises
nothing and returns the single-entry black palette. -/
theorem C7_counterexample :
    (0 : ℤ) ≤ 0 ∧ quantize_matrix 0 ([] : Grid) = some ([(0, 0, 0)], []) :=
  ⟨le_refl 0, by decide⟩

/-- C7 amended: `quantize` performs no validation of `K`.  With an
empty grid it returns the single-entry black palette for any `K`
(degenerate input is indeed not an error, also when `K ≤ 0`); with a
non-empty grid and `K ≤ 0` the palette is truncated to empty and the
per-cell nearest-match raises (numpy `argmin` of an empty array) — a
runtime failure, but no explicit `InvalidArgument` check exists. -/
theorem C7_no_validation (K : ℤ) (hK : K ≤ 0) (g : Grid) :
    (g.flatten = [] → quantize_matrix K g = some ([(0, 0, 0)], g)) ∧
    (g.flatten ≠ [] → quantize_matrix K g = none) := by
  constructor
  · intro hfl
    have hrows : ∀ row ∈ g, row = [] := List.flatten_eq_nil_iff.1 hfl
    have hpal : medianCutQuantize K g.flatten = [(0, 0, 0)] := by
      unfold medianCutQuantize
      rw [if_pos hfl]
    simp only [quantize_matrix]
    rw [hpal]
    have hid : mapOpt (fun row => mapOpt
        (fun c => findClosest c [(0, 0, 0)]) row) g = some g := by
      apply mapOpt_id
      intro row hrow
      rw [hrows row hrow]
      rfl
    rw [hid]
    rfl
  · intro hfl
    have hpal : medianCutQuantize K g.flatten = [] :=
      medianCutQuantize_nonpos K hK g.flatten hfl
    have hrow : ∃ row ∈ g, row ≠ [] := by
      by_contra hno
      push_neg at hno
      exact hfl (List.flatten_eq_nil_iff.2 hno)
    obtain ⟨row, hrowg, hrowne⟩ := hrow
    simp only [quantize_matrix]
    rw [hpal]
    have hrownone : mapOpt (fun c => findClosest c ([] : List RGB)) row = none := by
      cases row with
      | nil => exact absurd rfl hrowne
      | cons c cs => exact mapOpt_none _ _ c (List.mem_cons_self c cs) rfl
    rw [mapOpt_none _ g row hrowg hrownone]
    rfl

/-- C7 amended, witnessed: `K = 0` on a one-cell grid fails at the
mapping stage (empty palette), not through a validation error. -/
theorem C7_no_validation_witness :
    (0 : ℤ) ≤ 0 ∧ quantize_matrix 0 [[(1, 2, 3)]] = none :=
  ⟨le_refl 0, (C7_no_validation 0 (le_refl 0) [[(1, 2, 3)]]).2 (by decide)⟩

/-! ## C5: the box representative is the truncated mean -/

theorem mem_iteSingleton {b x : Box}
    (h : b ∈ (if x = [] then ([] : List Box) else [x])) : b = x := by
  split_ifs at h with hx
  · simp at h
  · simpa using h

/-- One split step only redistributes points: every point of every new
box was a point of some old box. -/
theorem mcStep_mem {boxes bs : List Box} (h : mcStep boxes = some bs) :
    ∀ b ∈ bs, ∀ p ∈ b, ∃ b0 ∈ boxes, p ∈ b0 := by
  simp only [mcStep] at h
  by_cases hlen : (boxes.getD (selectIdx boxes) []).length ≤ 1
  · rw [if_pos hlen] at h
    exact absurd h (by simp)
  · rw [if_neg hlen] at h
    simp only [Option.some.injEq] at h
    subst h
    intro b hb p hp
    have hi : selectIdx boxes < boxes.length := by
      by_contra hge
      push_neg at hge
      rw [List.getD_eq_default _ _ hge] at hlen
      simp at hlen
    have hb0 : boxes.getD (selectIdx boxes) [] ∈ boxes := by
      rw [List.getD_eq_getElem _ _ hi]
      exact List.getElem_mem hi
    have hperm := List.perm_insertionSort
      (chanLe (argmaxChannel (boxes.getD (selectIdx boxes) [])))
      (boxes.getD (selectIdx boxes) [])
    rcases List.mem_append.1 hb with hb' | hb2
    · rcases List.mem_append.1 hb' with he | hb1
      · exact ⟨b, (List.eraseIdx_sublist boxes (selectIdx boxes)).subset he, hp⟩
      · have hbt := mem_iteSingleton hb1
        subst hbt
        have hps : p ∈ List.insertionSort
            (chanLe (argmaxChannel (boxes.getD (selectIdx boxes) [])))
            (boxes.getD (selectIdx boxes) []) :=
          List.take_subset _ _ hp
        exact ⟨boxes.getD (selectIdx boxes) [], hb0, hperm.subset hps⟩
    · have hbt := mem_iteSingleton hb2
      subst hbt
      have hps : p ∈ List.insertionSort
          (chanLe (argmaxChannel (boxes.getD (selectIdx boxes) [])))
          (boxes.getD (selectIdx boxes) []) :=
        List.drop_subset _ _ hp
      exact ⟨boxes.getD (selectIdx boxes) [], hb0, hperm.subset hps⟩

/-- The split loop only redistributes points. -/
theorem mcLoop_mem (K : ℤ) :
    ∀ (fuel : ℕ) (boxes : List Box), ∀ b ∈ mcLoop K fuel boxes, ∀ p ∈ b,
      ∃ b0 ∈ boxes, p ∈ b0 := by
  intro fuel
  induction fuel with
  | zero => exact fun boxes b hb p hp => ⟨b, hb, hp⟩
  | succ n ih =>
    intro boxes b hb p hp
    simp only [mcLoop] at hb
    split_ifs at hb with hc
    · cases hstep : mcStep boxes with
      | none =>
        rw [hstep] at hb
        exact ⟨b, hb, hp⟩
      | some bs =>
        rw [hstep] at hb
        obtain ⟨b1, hb1, hp1⟩ := ih bs b hb p hp
        exact mcStep_mem hstep b1 hb1 p hp1
    · exact ⟨b, hb, hp⟩

/-- Every point of every final box of the median cut is one of the
input pixels. -/
theorem medianCutBoxes_mem (K : ℤ) (pixels : Box) :
    ∀ b ∈ medianCutBoxes K pixels, ∀ p ∈ b, p ∈ pixels := by
  intro b hb p hp
  obtain ⟨b0, hb0, hp0⟩ := mcLoop_mem K (K.toNat + 1) [pixels] b hb p hp
  rcases List.mem_singleton.1 hb0 with rfl
  exact hp0

/-- For a box of 8-bit points the channel mean (floored) is at most
255, so the `uint8` cast of `meanColor` never wraps and equals the
truncated mean. -/
theorem meanColor_eq_floorMean (b : Box)
    (hb : ∀ p ∈ b, p.1 ≤ 255 ∧ p.2.1 ≤ 255 ∧ p.2.2 ≤ 255) :
    meanColor b = floorMean b ∧
      (floorMean b).1 ≤ 255 ∧ (floorMean b).2.1 ≤ 255 ∧
      (floorMean b).2.2 ≤ 255 := by
  have key : ∀ f : RGB → ℕ, (∀ p ∈ b, f p ≤ 255) →
      (b.map f).sum / b.length ≤ 255 := by
    intro f hf
    cases hb2 : b with
    | nil => simp
    | cons x xs =>
      have hsum : ((x :: xs).map f).sum ≤ (x :: xs).length * 255 := by
        have hs := List.sum_le_card_nsmul ((x :: xs).map f) 255 ?_
        · simpa using hs
        · intro v hv
          obtain ⟨p, hpm, rfl⟩ := List.mem_map.1 hv
          exact hf p (hb2 ▸ hpm)
      have hpos : 0 < (x :: xs).length := by simp
      calc ((x :: xs).map f).sum / (x :: xs).length
          ≤ 255 * (x :: xs).length / (x :: xs).length :=
            Nat.div_le_div_right (by omega)
        _ = 255 := Nat.mul_div_cancel 255 hpos
  have h1 := key (fun p => p.1) (fun p hp => (hb p hp).1)
  have h2 := key (fun p => p.2.1) (fun p hp => (hb p hp).2.1)
  have h3 := key (fun p => p.2.2) (fun p hp => (hb p hp).2.2)
  refine ⟨?_, h1, h2, h3⟩
  unfold meanColor floorMean
  rw [Nat.mod_eq_of_lt (Nat.lt_succ_of_le h1),
    Nat.mod_eq_of_lt (Nat.lt_succ_of_le h2),
    Nat.mod_eq_of_lt (Nat.lt_succ_of_le h3)]

/-- C5 counterexample: the claim says the representative is the mean
rounded to the nearest integer, but for the box
`{(0,0,0), (0,0,0), (5,5,5)}` (mean `5/3 ≈ 1.67`) the code's palette
entry is the truncation `(1,1,1)`, while rounding to the nearest
integer (and clamping) gives `(2,2,2)`. -/
theorem C5_counterexample :
    medianCutQuantize 1 [(0, 0, 0), (0, 0, 0), (5, 5, 5)] = [(1, 1, 1)] ∧
    roundMeanSpec [(0, 0, 0), (0, 0, 0), (5, 5, 5)] = (2, 2, 2) := by
  constructor
  · decide
  · norm_num [roundMeanSpec, round_eq, max_def, min_def]

/-- C5 amended: for every final box of the median cut over 8-bit
pixels, the representative palette color is the componentwise
arithmetic mean truncated (floored) to an integer — not rounded to the
nearest — and it already lies in `[0,255]`, so the `uint8` cast (and
any clamping) is vacuous. -/
theorem C5_mean_truncated (K : ℤ) (pixels : Box)
    (hp : ∀ p ∈ pixels, p.1 ≤ 255 ∧ p.2.1 ≤ 255 ∧ p.2.2 ≤ 255) :
    ∀ b ∈ medianCutBoxes K pixels,
      meanColor b = floorMean b ∧
      (floorMean b).1 ≤ 255 ∧ (floorMean b).2.1 ≤ 255 ∧
      (floorMean b).2.2 ≤ 255 := by
  intro b hb
  exact meanColor_eq_floorMean b
    (fun p hpb => hp p (medianCutBoxes_mem K pixels b hb p hpb))

/-- C5 amended, witnessed on the three-pixel box. -/
theorem C5_mean_truncated_witness :
    meanColor [(0, 0, 0), (0, 0, 0), (5, 5, 5)] =
      floorMean [(0, 0, 0), (0, 0, 0), (5, 5, 5)] ∧
    (floorMean [(0, 0, 0), (0, 0, 0), (5, 5, 5)]).1 ≤ 255 ∧
    (floorMean [(0, 0, 0), (0, 0, 0), (5, 5, 5)]).2.1 ≤ 255 ∧
    (floorMean [(0, 0, 0), (0, 0, 0), (5, 5, 5)]).2.2 ≤ 255 :=
  C5_mean_truncated 1 [(0, 0, 0), (0, 0, 0), (5, 5, 5)] (by decide)
    [(0, 0, 0), (0, 0, 0), (5, 5, 5)] (by decide)

/-! ## C8: the paint inventory -/

/-- One `add_color` step keeps the association list well-formed: keys
stay distinct, keys are exactly the colors seen so far, and each value
is the occurrence count of its key. -/
theorem addColor_inv (seen : List RGB) (acc : List (RGB × ℕ)) (c : RGB)
    (h1 : (acc.map Prod.fst).Nodup)
    (h2 : ∀ x : RGB, x ∈ acc.map Prod.fst ↔ x ∈ seen)
    (h3 : ∀ e ∈ acc, e.2 = seen.count e.1) :
    ((addColor acc c).map Prod.fst).Nodup ∧
    (∀ x : RGB, x ∈ (addColor acc c).map Prod.fst ↔ x ∈ seen ++ [c]) ∧
    (∀ e ∈ addColor acc c, e.2 = (seen ++ [c]).count e.1) := by
  by_cases hc : acc.any (fun e => e.1 = c)
  · have hcmem : c ∈ acc.map Prod.fst := by
      simp only [List.any_eq_true, decide_eq_true_eq] at hc
      obtain ⟨e, he, hec⟩ := hc
      exact List.mem_map.2 ⟨e, he, hec⟩
    have hcseen : c ∈ seen := (h2 c).1 hcmem
    have hkeys : (addColor acc c).map Prod.fst = acc.map Prod.fst := by
      unfold addColor
      rw [if_pos hc, List.map_map]
      apply List.map_congr_left
      intro e _
      by_cases hec : e.1 = c <;> simp [hec]
    refine ⟨hkeys ▸ h1, ?_, ?_⟩
    · intro x
      rw [hkeys, h2]
      constructor
      · exact fun h => List.mem_append_left _ h
      · intro h
        rcases List.mem_append.1 h with h | h
        · exact h
        · rcases List.mem_singleton.1 h with rfl
          exact hcseen
    · intro e he
      unfold addColor at he
      rw [if_pos hc] at he
      obtain ⟨a, ha, hae⟩ := List.mem_map.1 he
      by_cases hac : a.1 = c
      · rw [if_pos hac] at hae
        subst hae
        simp only [List.count_append, hac]
        rw [h3 a ha, hac]
        simp [List.count_cons]
      · rw [if_neg hac] at hae
        subst hae
        rw [List.count_append, h3 a ha]
        simp [List.count_cons, hac]
  · have hcnot : c ∉ acc.map Prod.fst := by
      intro hmem
      obtain ⟨e, he, hec⟩ := List.mem_map.1 hmem
      apply hc
      simp only [List.any_eq_true, decide_eq_true_eq]
      exact ⟨e, he, hec⟩
    have hcseen : c ∉ seen := fun h => hcnot ((h2 c).2 h)
    unfold addColor
    rw [if_neg hc]
    refine ⟨?_, ?_, ?_⟩
    · rw [List.map_append]
      refine h1.append (List.nodup_singleton c) ?_
      intro x hx hxc
      rcases List.mem_singleton.1 (by simpa using hxc) with rfl
      exact hcnot hx
    · intro x
      rw [List.map_append]
      simp only [List.mem_append, List.map_cons, List.map_nil,
        List.mem_singleton, h2 x]
    · intro e he
      rcases List.mem_append.1 he with he | he
      · have hne : e.1 ≠ c := fun hq => hcnot (hq ▸ List.mem_map.2 ⟨e, he, rfl⟩)
        rw [List.count_append, h3 e he]
        simp [List.count_cons, hne]
      · rcases List.mem_singleton.1 he with rfl
        rw [List.count_append]
        have h0 : seen.count c = 0 := List.count_eq_zero_of_not_mem hcseen
        simp [h0, List.count_cons]

/-- Folding `add_color` over a pixel list produces exactly the
per-color occurrence counts, keyed without duplicates. -/
theorem foldl_addColor_inv :
    ∀ (l : List RGB) (seen : List RGB) (acc : List (RGB × ℕ)),
      (acc.map Prod.fst).Nodup →
      (∀ x : RGB, x ∈ acc.map Prod.fst ↔ x ∈ seen) →
      (∀ e ∈ acc, e.2 = seen.count e.1) →
      ((l.foldl addColor acc).map Prod.fst).Nodup ∧
      (∀ x : RGB, x ∈ (l.foldl addColor acc).map Prod.fst ↔ x ∈ seen ++ l) ∧
      (∀ e ∈ l.foldl addColor acc, e.2 = (seen ++ l).count e.1) := by
  intro l
  induction l with
  | nil =>
    intro seen acc h1 h2 h3
    rw [List.foldl_nil, List.append_nil]
    exact ⟨h1, h2, h3⟩
  | cons c cs ih =>
    intro seen acc h1 h2 h3
    obtain ⟨s1, s2, s3⟩ := addColor_inv seen acc c h1 h2 h3
    have hrec := ih (seen ++ [c]) (addColor acc c) s1 s2 s3
    have hassoc : seen ++ [c] ++ cs = seen ++ c :: cs := by
      rw [List.append_assoc, List.singleton_append]
    rw [hassoc] at hrec
    rw [List.foldl_cons]
    exact hrec

/-- C8: for every grid, `inventory` returns one entry per distinct RGB
triple (keys distinct and exactly the occurring colors), sorted
descending by usage count with ties broken by ascending RGB order,
every count strictly positive and equal to the color's occurrence
count, and the counts summing to the number of cells — `R*C` for an
`R×C` grid. -/
theorem C8_inventory (g : Grid) :
    ((get_required_paints g).map Prod.fst).Nodup ∧
    (∀ x : RGB, x ∈ (get_required_paints g).map Prod.fst ↔ x ∈ g.flatten) ∧
    (∀ e ∈ get_required_paints g, e.2 = g.flatten.count e.1 ∧ 0 < e.2) ∧
    List.Sorted entryLe (get_required_paints g) ∧
    ((get_required_paints g).map Prod.snd).sum = g.flatten.length ∧
    (∀ R C : ℕ, g.length = R → (∀ row ∈ g, row.length = C) →
      ((get_required_paints g).map Prod.snd).sum = R * C) := by
  have hinv := foldl_addColor_inv g.flatten [] [] (by simp) (by simp) (by simp)
  rw [List.nil_append] at hinv
  obtain ⟨h1, h2, h3⟩ := hinv
  have hperm : List.Perm (get_required_paints g) (g.flatten.foldl addColor []) :=
    List.perm_insertionSort entryLe _
  have hpermf : List.Perm ((get_required_paints g).map Prod.fst)
      ((g.flatten.foldl addColor []).map Prod.fst) := hperm.map _
  have hperms : List.Perm ((get_required_paints g).map Prod.snd)
      ((g.flatten.foldl addColor []).map Prod.snd) := hperm.map _
  have hsum : ((get_required_paints g).map Prod.snd).sum = g.flatten.length := by
    rw [hperms.sum_eq]
    have hcongr : (g.flatten.foldl addColor []).map Prod.snd =
        (g.flatten.foldl addColor []).map (fun e => g.flatten.count e.1) :=
      List.map_congr_left (fun e he => h3 e he)
    rw [hcongr, show ((g.flatten.foldl addColor []).map
        (fun e => g.flatten.count e.1)) =
        ((g.flatten.foldl addColor []).map Prod.fst).map
          (fun x => g.flatten.count x) by rw [List.map_map]; rfl]
    have hkeysperm : List.Perm ((g.flatten.foldl addColor []).map Prod.fst)
        g.flatten.dedup := by
      apply List.perm_iff_count.2
      intro a
      by_cases ha : a ∈ (g.flatten.foldl addColor []).map Prod.fst
      · rw [List.count_eq_one_of_mem h1 ha,
          List.count_eq_one_of_mem g.flatten.nodup_dedup
            (List.mem_dedup.2 ((h2 a).1 ha))]
      · rw [List.count_eq_zero_of_not_mem ha,
          List.count_eq_zero_of_not_mem
            (fun hd => ha ((h2 a).2 (List.mem_dedup.1 hd)))]
    rw [(hkeysperm.map (fun x => g.flatten.count x)).sum_eq]
    exact List.sum_map_count_dedup_eq_length g.flatten
  refine ⟨hpermf.nodup_iff.2 h1, ?_, ?_, List.sorted_insertionSort entryLe _,
    hsum, ?_⟩
  · intro x
    rw [hpermf.mem_iff]
    exact h2 x
  · intro e he
    have hec : e ∈ g.flatten.foldl addColor [] := hperm.subset he
    refine ⟨h3 e hec, ?_⟩
    rw [h3 e hec]
    exact List.count_pos_iff.2 ((h2 e.1).1 (List.mem_map.2 ⟨e, hec, rfl⟩))
  · intro R C hR hrect
    rw [hsum]
    subst hR
    have hrep : g.map List.length = List.replicate g.length C := by
      have := List.eq_replicate_of_mem
        (l := g.map List.length) (a := C) ?_
      · rw [List.length_map] at this
        exact this
      · intro b hb
        obtain ⟨row, hrow, rfl⟩ := List.mem_map.1 hb
        exact hrect row hrow
    rw [List.length_flatten, hrep, List.sum_replicate, smul_eq_mul]

/-- C8, witnessed on the 2×2 grid of the spec's example. -/
theorem C8_inventory_witness :
    ((get_required_paints
        [[(255, 0, 0), (0, 255, 0)], [(255, 0, 0), (128, 128, 128)]]).map
      Prod.snd).sum = 2 * 2 :=
  (C8_inventory [[(255, 0, 0), (0, 255, 0)],
    [(255, 0, 0), (128, 128, 128)]]).2.2.2.2.2 2 2 (by decide) (by decide)

/-- C2, witnessed at source 100×100 and request `(50, 70)`: a tie
(both candidates score 20) resolved in favour of candidate A. -/
theorem C2_closest_fit_witness :
    calculate_dimensions_preserving_aspect_ratio 100 100 50 70 =
      some (50, 50, 0, 20) := by
  have h := C2_closest_fit.1 100 100 50 70 (by norm_num) (by norm_num)
  rw [h]
  norm_num [abs_eq_max_neg, max_def, min_def]

/-- C4 amended, witnessed at the CMYK record of pure red. -/
theorem C4_mix_recipe_sum_witness :
    calculate_mix_instructions 0 100 100 0 ≠ [] ∧
    (∀ e ∈ calculate_mix_instructions 0 100 100 0, 0 ≤ e.2) ∧
    |((calculate_mix_instructions 0 100 100 0).map (fun e => e.2)).sum - 100| ≤
      1 / 4 :=
  C4_mix_recipe_sum 0 100 100 0
